import Mathlib

/-!
# Shallow embedding of the `font.c` text layout and rendering core

This file embeds the text layout engine, the text renderer's character
step and the atlas packer of `font.c` (OpenGL font rendering of the
naev engine) and proves properties of them.

Modelling conventions:
* A text is a `List CP` (`CP := Fin 128`): the ordered sequence of the
  C string's bytes before the terminator.  A C string never contains
  the byte 0 in its interior, so a list element models a byte the loops
  actually visit.  Texts with bytes outside 0–127 are treated by the
  separate byte-level embedding (`... B` definitions) whose glyph-table
  access is partial, since the C code's `(int)text[i]` sign-extends
  such a byte to a negative out-of-bounds index.
* Glyph advances are `Nat`: the data model's invariant is that advances
  are non-negative (FreeType pixel advances of rendered glyphs).
* C `int` pixel budgets are modelled as `Nat` (pixel budgets are
  non-negative); `double` arithmetic on whole and half pixels is
  modelled exactly in `ℚ`, and the C `(int)` cast of the (non-negative)
  results by `Int.floor`.
-/

namespace NaevFont

/-- A code point: a raw byte value 0–127 selecting one glyph of the
dense 128-entry glyph table. -/
abbrev CP := Fin 128

/-- The per-glyph data `font.c` keeps in `glFontChar`: the pixel
advances `adv_x`, `adv_y` applied after the glyph is drawn. -/
structure glFontChar where
  adv_x : Nat
  adv_y : Nat
deriving DecidableEq

/-- The loaded font resource (`glFont`): nominal line height `h` and the
dense per-code-point glyph table `chars`. -/
structure glFont where
  h : Nat
  chars : CP → glFontChar

/-- Tab byte `'\t'`. -/
def tabC : CP := ⟨9, by decide⟩

/-- Newline byte `'\n'`. -/
def nlC : CP := ⟨10, by decide⟩

/-- The escape marker byte `'\e'` (0x1b). -/
def escC : CP := ⟨27, by decide⟩

/-- Space byte. -/
def spaceC : CP := ⟨32, by decide⟩

/-- The directive byte `'0'` (reset colour). -/
def zeroC : CP := ⟨48, by decide⟩

/-- Letter bytes used by the concrete test texts and the colour
directive letters of the renderer. -/
def aC : CP := ⟨97, by decide⟩

/-- Letter `b` (also the blue colour directive). -/
def bC : CP := ⟨98, by decide⟩

/-- Letter `c`. -/
def cC : CP := ⟨99, by decide⟩

/-- Letter `d`. -/
def dC : CP := ⟨100, by decide⟩

/-- Letter `e`. -/
def eC : CP := ⟨101, by decide⟩

/-- Letter `f`. -/
def fC : CP := ⟨102, by decide⟩

/-- Letter `g` (the green colour directive). -/
def gC : CP := ⟨103, by decide⟩

/-- Letter `r` (the red colour directive). -/
def rC : CP := ⟨114, by decide⟩

/-- Sum of the horizontal advances of a text's code points in a font:
the reference measure the layout theorems compare against. -/
def sumAdv (ft_font : glFont) (text : List CP) : Nat :=
  (text.map fun c => (ft_font.chars c).adv_x).sum

/-- The loop of `font_limitSize`: `i` counts the characters taken so
far, `n` their accumulated width.  The C body is
`n += adv; if (n > max) { n -= adv; break; }`, i.e. a character whose
advance would push the total over `max` is excluded from both the
count and the width. -/
def font_limitSizeGo (ft_font : glFont) (max : Nat) :
    List CP → Nat → Nat → Nat × Nat
  | [], i, n => (i, n)
  | c :: text, i, n =>
    if n + (ft_font.chars c).adv_x > max then (i, n)
    else font_limitSizeGo ft_font max text (i + 1) (n + (ft_font.chars c).adv_x)

/-- `font_limitSize` for a non-NULL text: the number of characters of
`text` that fit into `max` pixels, together with the accumulated width
of that prefix (the C `*width` out-parameter). -/
def font_limitSize (ft_font : glFont) (text : List CP) (max : Nat) : Nat × Nat :=
  font_limitSizeGo ft_font max text 0 0

/-- The full C entry point `font_limitSize` with its `text == NULL`
guard: a NULL text (`none`) returns 0 before the loop and before the
`width` out-parameter is written.  The second component models the
width slot: `none` means the out-parameter was not written. -/
def font_limitSizeC (ft_font : glFont) (text : Option (List CP)) (max : Nat) :
    Nat × Option Nat :=
  match text with
  | none => (0, none)
  | some t => ((font_limitSize ft_font t max).1, some (font_limitSize ft_font t max).2)

/-- `gl_printWidthRaw`: the pixel width of a text.  Every byte adds its
glyph's `adv_x` except escape sequences.  The escape branch runs inside
a C *for* loop, `for (n=0,i=0; i<(int)strlen(text); i++)`: the
`continue` after `i += 2` jumps to the loop's `i++`, so an escape
marker with a following byte advances the index by *three* — the
escape marker, the directive byte and the byte right after it are all
skipped (the code's comment says only the escape sequence is ignored;
the extra skipped byte is a for/continue off-by-one). -/
def gl_printWidthRaw (ft_font : glFont) : List CP → Nat
  | [] => 0
  | c :: text =>
    if c = escC then
      match text with
      | [] => 0
      | _ :: text2 =>
        match text2 with
        | [] => 0
        | _ :: text3 => gl_printWidthRaw ft_font text3
    else (ft_font.chars c).adv_x + gl_printWidthRaw ft_font text

/-- The loop of `gl_printWidthForText`: scan position `i`, accumulated
width `n` and the index `lastspace` of the most recent space (0 when
none has been seen).  The loop stops at a newline or at the end of the
text; tabs are skipped; an escape marker and its following byte are
skipped; otherwise the byte's advance is added, a space records its
index, and when the accumulated width goes over `width` the function
returns `lastspace`. -/
def gl_printWidthForTextGo (ft_font : glFont) (width : Nat) :
    List CP → Nat → Nat → Nat → Nat
  | [], i, _, _ => i
  | c :: text, i, n, lastspace =>
    if c = nlC then i
    else if c = tabC then gl_printWidthForTextGo ft_font width text (i + 1) n lastspace
    else if c = escC then
      match text with
      | [] => i + 1
      | _ :: text2 => gl_printWidthForTextGo ft_font width text2 (i + 2) n lastspace
    else
      let n2 := n + (ft_font.chars c).adv_x
      let ls2 := if c = spaceC then i else lastspace
      if n2 > width then ls2
      else gl_printWidthForTextGo ft_font width text (i + 1) n2 ls2

/-- `gl_printWidthForText`: the index at which a line of `text` breaks
for the pixel budget `width`. -/
def gl_printWidthForText (ft_font : glFont) (text : List CP) (width : Nat) : Nat :=
  gl_printWidthForTextGo ft_font width text 0 0 0

/-- A concrete test font: line height 10, space advance 5, every other
glyph advance 10 (vertical advances 0). -/
def fontT : glFont :=
  { h := 10
    chars := fun c => if c = spaceC then ⟨5, 0⟩ else ⟨10, 0⟩ }

/-- The test text of the wrap example. -/
def abcdefT : List CP := [aC, bC, cC, spaceC, dC, eC, fC]

/-! ## Byte-level embedding: texts with bytes outside 0–127

The C code reads `ft_font->chars[ (int)text[i] ]` where `text` is a
`char *`: a byte b ≥ 128 sign-extends to the negative index b − 256 and
the access is out of bounds.  The byte-level functions below make the
glyph-table access partial: `none` marks the call whose execution
performs that out-of-range access (the C behaviour there is undefined;
in particular no `EncodingError` — no such error exists in the code). -/

/-- A raw byte of a text. -/
abbrev Byte := Fin 256

/-- Glyph-table access for a raw byte: defined only for bytes 0–127; a
byte outside that range is the out-of-bounds access `chars[b - 256]`. -/
def charAt (ft_font : glFont) (b : Byte) : Option glFontChar :=
  if h : b.val < 128 then some (ft_font.chars ⟨b.val, h⟩) else none

/-- Byte-level `font_limitSize` loop. -/
def font_limitSizeGoB (ft_font : glFont) (max : Nat) :
    List Byte → Nat → Nat → Option (Nat × Nat)
  | [], i, n => some (i, n)
  | c :: text, i, n =>
    match charAt ft_font c with
    | none => none
    | some gl =>
      if n + gl.adv_x > max then some (i, n)
      else font_limitSizeGoB ft_font max text (i + 1) (n + gl.adv_x)

/-- Byte-level `font_limitSize`. -/
def font_limitSizeB (ft_font : glFont) (text : List Byte) (max : Nat) :
    Option (Nat × Nat) :=
  font_limitSizeGoB ft_font max text 0 0

/-- Byte-level `gl_printWidthRaw` (with the same for/continue skip of
three bytes on an escape marker with a following byte; a skipped byte
is never read, so it is not range-checked either). -/
def gl_printWidthRawB (ft_font : glFont) : List Byte → Option Nat
  | [] => some 0
  | c :: text =>
    if c.val = 27 then
      match text with
      | [] => some 0
      | _ :: text2 =>
        match text2 with
        | [] => some 0
        | _ :: text3 => gl_printWidthRawB ft_font text3
    else
      match charAt ft_font c with
      | none => none
      | some gl => (gl_printWidthRawB ft_font text).map (gl.adv_x + ·)

/-- Byte-level `gl_printWidthForText` loop. -/
def gl_printWidthForTextGoB (ft_font : glFont) (width : Nat) :
    List Byte → Nat → Nat → Nat → Option Nat
  | [], i, _, _ => some i
  | c :: text, i, n, lastspace =>
    if c.val = 10 then some i
    else if c.val = 9 then gl_printWidthForTextGoB ft_font width text (i + 1) n lastspace
    else if c.val = 27 then
      match text with
      | [] => some (i + 1)
      | _ :: text2 => gl_printWidthForTextGoB ft_font width text2 (i + 2) n lastspace
    else
      match charAt ft_font c with
      | none => none
      | some gl =>
        let n2 := n + gl.adv_x
        let ls2 := if c.val = 32 then i else lastspace
        if n2 > width then some ls2
        else gl_printWidthForTextGoB ft_font width text (i + 1) n2 ls2

/-- Byte-level `gl_printWidthForText`. -/
def gl_printWidthForTextB (ft_font : glFont) (text : List Byte) (width : Nat) :
    Option Nat :=
  gl_printWidthForTextGoB ft_font width text 0 0 0

/-- The byte 200 (0xC8): in C it indexes `chars[-56]`. -/
def b200 : Byte := ⟨200, by decide⟩

/-- An in-range code point as a raw byte. -/
def toByte (c : CP) : Byte := ⟨c.val, by omega⟩

/-! ## The text renderer's character step -/

/-- A colour as the renderer sees it (the C `glColour`, channels as
exact rationals standing for the doubles). -/
structure glColour where
  r : ℚ
  g : ℚ
  b : ℚ
  a : ℚ
deriving DecidableEq

/-- Modelled from the spec: the three built-in named colours selected
by the colour directives (their numeric values live in `colour.c`,
outside the repository slice; only their identity matters here). -/
def cRed : glColour := ⟨1, 0, 0, 1⟩

/-- Modelled from the spec: the built-in green directive colour. -/
def cGreen : glColour := ⟨0, 1, 0, 1⟩

/-- Modelled from the spec: the built-in blue directive colour. -/
def cBlue : glColour := ⟨0, 0, 1, 1⟩

/-- Opaque white, the colour `glColor4d(1., 1., 1., 1.)` sets. -/
def cWhite : glColour := ⟨1, 1, 1, 1⟩

/-- `ACOLOUR(c, a)`: colour `c` with its alpha replaced by `a`. -/
def ACOLOUR (c : glColour) (a : ℚ) : glColour := ⟨c.r, c.g, c.b, a⟩

/-- A GL call the character step can make: the quad's indexed triangle
draw, the pen translation by a glyph's advances, or a colour change. -/
inductive GLCmd where
  | drawElements (ind : List Nat)
  | matrixTranslate (dx dy : Nat)
  | setColour (c : glColour)
deriving DecidableEq

/-- `gl_fontRenderCharacter`: one step of the render state machine.
Result: the next state (the C return value: 1 after an escape marker,
0 otherwise) and the GL calls the step makes.  The escape-marker check
comes first (so an escape marker seen while a directive is awaited
starts a new sequence); in state 1 the byte is consumed as a colour
directive (`r`/`g`/`b` set a built-in colour carrying the caller
colour's alpha, `0` resets to the caller colour or white, any other
byte does nothing); otherwise the glyph's two triangles are drawn via
its 4 baked vertices and the pen advances by `(adv_x, adv_y)`. -/
def gl_fontRenderCharacter (font : glFont) (ch : CP) (c : Option glColour)
    (state : Int) : Int × List GLCmd :=
  if ch = escC then (1, [])
  else if state = 1 then
    let a : ℚ := match c with | none => 1 | some col => col.a
    let cmds : List GLCmd :=
      if ch = rC then [GLCmd.setColour (ACOLOUR cRed a)]
      else if ch = gC then [GLCmd.setColour (ACOLOUR cGreen a)]
      else if ch = bC then [GLCmd.setColour (ACOLOUR cBlue a)]
      else if ch = zeroC then
        [GLCmd.setColour (match c with | none => cWhite | some col => col)]
      else []
    (0, cmds)
  else
    (0, [GLCmd.drawElements [4 * ch.val, 4 * ch.val + 1, 4 * ch.val + 3,
           4 * ch.val + 1, 4 * ch.val + 3, 4 * ch.val + 2],
         GLCmd.matrixTranslate (font.chars ch).adv_x (font.chars ch).adv_y])

/-- What `gl_printMaxRaw` does, beyond its GL side effects: which
prefix of the text the render loop draws (its bound is the fit count
`ret = font_limitSize(...)`), and the function's return value — the
literal `return 0;` of the C code. -/
structure PrintMaxResult where
  rendered : List CP
  ret : Int
deriving DecidableEq

/-- `gl_printMaxRaw`: truncating draw.  The fit count bounds the render
loop; the function returns 0. -/
def gl_printMaxRaw (ft_font : glFont) (max : Nat) (text : List CP) :
    PrintMaxResult :=
  { rendered := text.take (font_limitSize ft_font text max).1
    ret := 0 }

/-- What `gl_printMidRaw` does: the centred start position
`x + (width - n)/2`, the drawn prefix, and the return value — again the
literal `return 0;`. -/
structure PrintMidResult where
  x : ℚ
  rendered : List CP
  ret : Int
deriving DecidableEq

/-- `gl_printMidRaw`: centred, truncating draw. -/
def gl_printMidRaw (ft_font : glFont) (width : Nat) (x : ℚ) (text : List CP) :
    PrintMidResult :=
  { x := x + ((width : ℚ) - ((font_limitSize ft_font text width).2 : ℚ)) / 2
    rendered := text.take (font_limitSize ft_font text width).1
    ret := 0 }

/-! ## `gl_printHeightRaw` -/

/-- The iterations of `gl_printHeightRaw`'s do-while loop: each call is
one iteration (`i = gl_printWidthForText(&text[p], width); p += i + 1`),
and the loop continues exactly while the byte at the returned index is
not the terminator — in the list model, while the index is below the
remaining length.  The fuel argument (instantiated with the text's
length, which bounds the iteration count since every iteration consumes
at least one byte) keeps the recursion structural. -/
def gl_printLinesF (ft_font : glFont) (width : Nat) : Nat → List CP → Nat
  | 0, _ => 1
  | fuel + 1, text =>
    if gl_printWidthForText ft_font text width < text.length then
      1 + gl_printLinesF ft_font width fuel
        (text.drop (gl_printWidthForText ft_font text width + 1))
    else 1

/-- The number of lines `gl_printHeightRaw` steps through. -/
def gl_printLines (ft_font : glFont) (width : Nat) (text : List CP) : Nat :=
  gl_printLinesF ft_font width text.length text

/-- `gl_printHeightRaw`: 0 for the empty text; otherwise the loop adds
`1.5 * h` per line into the double `y` and the function returns
`(int)(y - 0.5 * h)` — exact in `ℚ`, and the cast truncates the
non-negative value, i.e. takes its floor. -/
def gl_printHeightRaw (ft_font : glFont) (width : Nat) (text : List CP) : Int :=
  if text = [] then 0
  else
    ⌊(3 / 2 : ℚ) * (ft_font.h : ℚ) * (gl_printLines ft_font width text : ℚ) -
      (1 / 2 : ℚ) * (ft_font.h : ℚ)⌋

/-! ## A declarative description of `gl_printWidthForText`

Following the spec's words for `wrapWidth`: scan until a newline or the
terminator, with tab bytes and escape sequences consuming no width;
if the accumulated width goes over the budget at some scanned byte,
the break index is the position of the most recent space (0 when none
has been seen); otherwise it is the index the scan stops at. -/

/-- The scan phase: the (position, byte) pairs that count toward the
width — everything up to the first (unescaped) newline except tabs and
escape sequences — together with the index the scan stops at. -/
def scanToks : List CP → Nat → List (Nat × CP) × Nat
  | [], i => ([], i)
  | c :: text, i =>
    if c = nlC then ([], i)
    else if c = tabC then scanToks text (i + 1)
    else if c = escC then
      match text with
      | [] => ([], i + 1)
      | _ :: text2 => scanToks text2 (i + 2)
    else
      ((i, c) :: (scanToks text (i + 1)).1, (scanToks text (i + 1)).2)

/-- The overflow phase: the shortest prefix of the counted tokens whose
accumulated width (starting from `n`) goes over the budget, `none` when
the whole token list fits. -/
def overflowAt (ft_font : glFont) (width : Nat) (n : Nat) :
    List (Nat × CP) → Option (List (Nat × CP))
  | [] => none
  | (j, c) :: toks =>
    if n + (ft_font.chars c).adv_x > width then some [(j, c)]
    else (overflowAt ft_font width (n + (ft_font.chars c).adv_x) toks).map ((j, c) :: ·)

/-- The position of the last space among a token list, with a default
for when it has none. -/
def lastSpaceIdxD (toks : List (Nat × CP)) (d : Nat) : Nat :=
  ((toks.filter fun q => q.2 = spaceC).map Prod.fst).getLast?.getD d

/-- The spec-side `wrapWidth`. -/
def wrapWidthSpec (ft_font : glFont) (text : List CP) (width : Nat) : Nat :=
  match overflowAt ft_font width 0 (scanToks text 0).1 with
  | none => (scanToks text 0).2
  | some pre => lastSpaceIdxD pre 0

/-! ## The atlas packer's sizing (`font_genTextureAtlas`) -/

/-- The dimensions of one rasterized glyph bitmap (the `w`/`h` fields
of `font_char_t` the packer reads). -/
structure font_char_dim where
  w : Nat
  h : Nat
deriving DecidableEq

/-- `total_w`: the summed widths of the rasterized glyphs. -/
def totalW (cs : List font_char_dim) : Nat := (cs.map fun c => c.w).sum

/-- `max_h`: the maximal glyph height (the C loop folds
`if (chars[i].h > max_h) max_h = chars[i].h` from 0). -/
def maxH (cs : List font_char_dim) : Nat := (cs.map fun c => c.h).foldl Nat.max 0

/-- `⌈√m⌉` for a natural `m`: the least `k` with `k * k ≥ m`. -/
def natCeilSqrt (m : Nat) : Nat :=
  if Nat.sqrt m * Nat.sqrt m = m then Nat.sqrt m else Nat.sqrt m + 1

/-- Ceiling division of naturals. -/
def ceilDiv (a b : Nat) : Nat := (a + b - 1) / b

/-- Modelled from the spec: `gl_pot`, power-of-two rounding for targets
that need POT textures (the function lives outside the repository
slice): the smallest power of two that is at least `n`. -/
def gl_pot (n : Nat) : Nat := 2 ^ Nat.clog 2 n

/-- The packer's test-fit loop over the glyph widths: wrap to a new row
when the running x-offset plus the glyph width reaches the atlas width,
and when the new row's bottom reaches or exceeds the current height,
grow the height by one row (`max_h`, re-rounded to a power of two for
POT targets). -/
def atlasFitLoop (w max_h : Nat) (needPOT : Bool) :
    List Nat → Nat → Nat → Nat → Nat
  | [], _, _, h => h
  | cw :: rest, x_off, y_off, h =>
    if x_off + cw ≥ w then
      let y2 := y_off + max_h
      let h2 :=
        if y2 + max_h ≥ h then (if needPOT then gl_pot (h + max_h) else h + max_h)
        else h
      atlasFitLoop w max_h needPOT rest cw y2 h2
    else atlasFitLoop w max_h needPOT rest (x_off + cw) y_off h

/-- The atlas dimensions `font_genTextureAtlas` settles on: the
estimated row count `n = ceil(sqrt((double)total_w / (double)max_h))`
(`natCeilSqrt (ceilDiv total_w max_h)` computes exactly that real
ceiling, see `natCeilSqrt_ceilDiv_eq`); the initial width
`ceil(total_w / n) + 1` — where `total_w / n` is C *integer* division,
so the outer `ceil` is the identity — and height `max_h * n + 1`; then
POT rounding when the target needs it, and the test-fit loop that can
grow the height. -/
def font_genTextureAtlasDims (needPOT : Bool) (cs : List font_char_dim) :
    Nat × Nat :=
  let total_w := totalW cs
  let max_h := maxH cs
  let n := natCeilSqrt (ceilDiv total_w max_h)
  let w0 := total_w / n + 1
  let h0 := max_h * n + 1
  let w := if needPOT then gl_pot w0 else w0
  let h1 := if needPOT then gl_pot h0 else h0
  (w, atlasFitLoop w max_h needPOT (cs.map fun c => c.w) 0 0 h1)

/-- A concrete set of 128 rasterized glyphs: one of width 10, the rest
of width 0, all of height 1. -/
def cs128 : List font_char_dim := ⟨10, 1⟩ :: List.replicate 127 ⟨0, 1⟩

/-! ## Properties of `font_limitSize` -/

theorem limitSizeGo_ge (ft_font : glFont) (max : Nat) :
    ∀ (t : List CP) (i n : Nat), i ≤ (font_limitSizeGo ft_font max t i n).1 := by
  intro t
  induction t with
  | nil => intro i n; simp [font_limitSizeGo]
  | cons c text ih =>
    intro i n
    simp only [font_limitSizeGo]
    split
    · exact le_refl i
    · exact le_trans (Nat.le_succ i) (ih (i + 1) _)

theorem limitSizeGo_le (ft_font : glFont) (max : Nat) :
    ∀ (t : List CP) (i n : Nat),
      (font_limitSizeGo ft_font max t i n).1 ≤ i + t.length := by
  intro t
  induction t with
  | nil => intro i n; simp [font_limitSizeGo]
  | cons c text ih =>
    intro i n
    simp only [font_limitSizeGo]
    split
    · simp
    · have := ih (i + 1) (n + (ft_font.chars c).adv_x)
      simp only [List.length_cons]
      omega

theorem limitSizeGo_width (ft_font : glFont) (max : Nat) :
    ∀ (t : List CP) (i n : Nat),
      (font_limitSizeGo ft_font max t i n).2 =
        n + sumAdv ft_font (t.take ((font_limitSizeGo ft_font max t i n).1 - i)) := by
  intro t
  induction t with
  | nil => intro i n; simp [font_limitSizeGo, sumAdv]
  | cons c text ih =>
    intro i n
    simp only [font_limitSizeGo]
    split
    · simp [sumAdv]
    · have hge := limitSizeGo_ge ft_font max text (i + 1) (n + (ft_font.chars c).adv_x)
      have hw := ih (i + 1) (n + (ft_font.chars c).adv_x)
      have hidx : (font_limitSizeGo ft_font max text (i + 1)
          (n + (ft_font.chars c).adv_x)).1 - i =
          ((font_limitSizeGo ft_font max text (i + 1)
            (n + (ft_font.chars c).adv_x)).1 - (i + 1)) + 1 := by omega
      rw [hw, hidx, List.take_succ_cons]
      simp [sumAdv]
      omega

theorem limitSizeGo_le_max (ft_font : glFont) (max : Nat) :
    ∀ (t : List CP) (i n : Nat), n ≤ max →
      (font_limitSizeGo ft_font max t i n).2 ≤ max := by
  intro t
  induction t with
  | nil => intro i n h; simpa [font_limitSizeGo] using h
  | cons c text ih =>
    intro i n h
    simp only [font_limitSizeGo]
    split
    · exact h
    · exact ih (i + 1) _ (by omega)

theorem limitSizeGo_maximal (ft_font : glFont) (max : Nat) :
    ∀ (t : List CP) (i n k : Nat), k ≤ t.length →
      n + sumAdv ft_font (t.take k) ≤ max →
      i + k ≤ (font_limitSizeGo ft_font max t i n).1 := by
  intro t
  induction t with
  | nil =>
    intro i n k hk _
    simp only [List.length_nil, Nat.le_zero] at hk
    simp [font_limitSizeGo, hk]
  | cons c text ih =>
    intro i n k hk hsum
    match k with
    | 0 => simpa using limitSizeGo_ge ft_font max (c :: text) i n
    | k' + 1 =>
      rw [List.take_succ_cons] at hsum
      simp only [sumAdv, List.map_cons, List.sum_cons] at hsum
      simp only [font_limitSizeGo]
      rw [if_neg (by omega)]
      have := ih (i + 1) (n + (ft_font.chars c).adv_x) k'
        (by simpa using hk) (by simp only [sumAdv]; omega)
      omega

theorem limitSizeGo_mono (ft_font : glFont) :
    ∀ (t : List CP) (i n W1 W2 : Nat), W1 ≤ W2 →
      (font_limitSizeGo ft_font W1 t i n).1 ≤ (font_limitSizeGo ft_font W2 t i n).1 := by
  intro t
  induction t with
  | nil => intro i n W1 W2 _; simp [font_limitSizeGo]
  | cons c text ih =>
    intro i n W1 W2 hW
    by_cases h1 : n + (ft_font.chars c).adv_x > W1
    · simp only [font_limitSizeGo]
      rw [if_pos h1]
      exact limitSizeGo_ge ft_font W2 (c :: text) i n
    · simp only [font_limitSizeGo]
      rw [if_neg h1, if_neg (by omega)]
      exact ih (i + 1) _ W1 W2 hW

/-! ## Claim C10: the NULL-text guard of `font_limitSize` -/

/-- C10.  For every font and pixel budget, `font_limitSize` with a NULL
text pointer returns a character count of 0 without touching the text
and without writing the `width` out-parameter (the guard returns before
either happens; `none` in the second component models the unwritten
out-parameter). -/
theorem limitSize_null_text :
    ∀ (ft_font : glFont) (max : Nat),
      font_limitSizeC ft_font none max = (0, none) :=
  fun _ _ => rfl

/-! ## Claim C6: `font_limitSize` computes the longest fitting prefix -/

/-- C6.  For every font, text and pixel budget, `font_limitSize`
greedily accumulates per-character advances and returns the length of
the longest prefix whose accumulated width is at most the budget,
together with that accumulated width (so the first character that would
overflow is excluded from both the count and the width); the empty text
gives `(0, 0)`. -/
theorem limitSize_longest_fit :
    ∀ (ft_font : glFont) (text : List CP) (max : Nat),
      (font_limitSize ft_font text max).1 ≤ text.length ∧
      (font_limitSize ft_font text max).2 =
        sumAdv ft_font (text.take (font_limitSize ft_font text max).1) ∧
      (font_limitSize ft_font text max).2 ≤ max ∧
      (∀ k, k ≤ text.length → sumAdv ft_font (text.take k) ≤ max →
        k ≤ (font_limitSize ft_font text max).1) ∧
      font_limitSize ft_font [] max = (0, 0) := by
  intro ft_font text max
  refine ⟨?_, ?_, ?_, ?_, rfl⟩
  · simpa using limitSizeGo_le ft_font max text 0 0
  · simpa [font_limitSize] using limitSizeGo_width ft_font max text 0 0
  · exact limitSizeGo_le_max ft_font max text 0 0 (Nat.zero_le _)
  · intro k hk hsum
    simpa using limitSizeGo_maximal ft_font max text 0 0 k hk (by simpa using hsum)

/-- Witness for C6 at a concrete input: in the test font, one character
of `ab` fits into 15 pixels, by the maximality clause at `k = 1`. -/
theorem limitSize_longest_fit_wit :
    1 ≤ (font_limitSize fontT [aC, bC] 15).1 :=
  (limitSize_longest_fit fontT [aC, bC] 15).2.2.2.1 1 (by decide) (by decide)

/-! ## Claim C9: the fit count is monotone in the budget -/

/-- C9.  For every font and text, the character count `font_limitSize`
returns is monotone in the pixel budget. -/
theorem limitSize_monotone :
    ∀ (ft_font : glFont) (text : List CP) (W1 W2 : Nat), W1 ≤ W2 →
      (font_limitSize ft_font text W1).1 ≤ (font_limitSize ft_font text W2).1 :=
  fun ft_font text W1 W2 h => limitSizeGo_mono ft_font text 0 0 W1 W2 h

/-- Witness for C9 at a concrete input. -/
theorem limitSize_monotone_wit :
    (font_limitSize fontT abcdefT 15).1 ≤ (font_limitSize fontT abcdefT 25).1 :=
  limitSize_monotone fontT abcdefT 15 25 (by decide)

/-! ## Claim C2: escape sequences and the width computations

The claim fails twice over.  `gl_printWidthRaw`'s escape branch sits in
a C for loop whose `continue` still runs the `i++`, so it skips the
escape marker, the directive byte *and the byte after them*:
`measureWidth(esc+'r'+"ab")` is the width of `"b"`, not of `"ab"`.
And `font_limitSize` does not skip escape sequences at all: it adds
their glyphs' advances like any other byte. -/

/-- Counterexample for C2 as stated: in the test font (every non-space
advance 10), `measureWidth(esc+'r'+"ab")` is 10 (only `b` is counted,
the `a` being swallowed by the for/continue skip), not the 20 of
`"ab"`; and `font_limitSize` reports width 40 for the same text (the
escape marker and directive contribute their advances), not 20. -/
theorem escape_width_cex :
    gl_printWidthRaw fontT [escC, rC, aC, bC] ≠ gl_printWidthRaw fontT [aC, bC] ∧
    (font_limitSize fontT [escC, rC, aC, bC] 1000).2 ≠
      (font_limitSize fontT [aC, bC] 1000).2 := by decide

/-- C2 as amended.  In the full-width measurement `gl_printWidthRaw`
an escape marker byte and its following directive byte contribute zero
width, but the byte immediately after the directive is skipped along
with them (the for loop's `i++` runs after the `continue`): for every
font, `measureWidth(esc+d+e+rest) = measureWidth(rest)`, a trailing
`esc+d` measures 0, and in particular `measureWidth(esc+'r'+"ab") =
measureWidth("b")`.  The fitting-length computation `font_limitSize`
does not skip escape sequences: it adds the escape marker's and the
directive byte's glyph advances like those of ordinary characters (in
the test font, 20 extra pixels). -/
theorem printWidth_escape_amended :
    ∀ (ft_font : glFont) (d e : CP) (rest : List CP),
      gl_printWidthRaw ft_font (escC :: d :: e :: rest) =
        gl_printWidthRaw ft_font rest ∧
      gl_printWidthRaw ft_font [escC, d] = 0 ∧
      gl_printWidthRaw ft_font (escC :: rC :: aC :: bC :: []) =
        gl_printWidthRaw ft_font [bC] ∧
      (font_limitSize fontT [escC, rC, aC, bC] 1000).2 =
        (font_limitSize fontT [aC, bC] 1000).2 + 20 :=
  fun _ _ _ _ => ⟨rfl, rfl, rfl, by decide⟩

/-- Witness for C2's amended statement at a concrete font. -/
theorem printWidth_escape_amended_wit :
    gl_printWidthRaw fontT (escC :: rC :: aC :: bC :: []) =
      gl_printWidthRaw fontT [bC] :=
  (printWidth_escape_amended fontT rC aC [bC]).2.2.1

/-! ## Claim C1: the return values of `gl_printMaxRaw` / `gl_printMidRaw` -/

/-- C1 (code bug).  Both functions document their return value as the
number of characters suppressed/truncated, but end in `return 0;`: at
the failing input (test font, all letter advances 10, text `ab`, budget
10 pixels) one character is suppressed — the render loop draws only
`a` — yet both return values are 0. -/
theorem printMaxMid_return_zero :
    (gl_printMaxRaw fontT 10 [aC, bC]).ret = 0 ∧
    (gl_printMaxRaw fontT 10 [aC, bC]).rendered = [aC] ∧
    [aC, bC].length - (font_limitSize fontT [aC, bC] 10).1 = 1 ∧
    (gl_printMidRaw fontT 10 0 [aC, bC]).ret = 0 :=
  ⟨rfl, by decide, by decide, rfl⟩

/-! ## Claim C4: bytes outside 0–127 -/

/-- C4 (code bug).  No layout operation rejects an out-of-range byte:
there is no `EncodingError` anywhere in the code.  At the failing input
(a text containing byte 200) each operation reaches the glyph-table
access `chars[(int)text[i]]`, which sign-extends the byte to the
out-of-bounds index −56: the byte-level embedding marks that undefined
access as `none`. -/
theorem layout_oob_byte_access :
    font_limitSizeB fontT [b200] 100 = none ∧
    gl_printWidthRawB fontT [b200] = none ∧
    gl_printWidthForTextB fontT [b200] 100 = none := by decide

/-! ## Claim C7: the renderer's character step -/

/-- C7.  One step of `gl_fontRenderCharacter`: an escape marker moves
the machine to the awaiting-directive state (return value 1) and makes
no GL call; in the awaiting-directive state the byte is consumed as a
colour directive — the step makes at most a colour change, no draw and
no pen advance — and the machine returns to the normal state; otherwise
the glyph's quad is drawn (two triangles over its 4 baked vertices),
the pen advances by the glyph's `(adv_x, adv_y)` and the machine stays
in the normal state. -/
theorem renderCharacter_state_machine :
    ∀ (font : glFont) (ch : CP) (c : Option glColour) (state : Int),
      (ch = escC → gl_fontRenderCharacter font ch c state = (1, [])) ∧
      (ch ≠ escC → state = 1 →
        (gl_fontRenderCharacter font ch c state).1 = 0 ∧
        ∀ cmd ∈ (gl_fontRenderCharacter font ch c state).2,
          ∃ col, cmd = GLCmd.setColour col) ∧
      (ch ≠ escC → state ≠ 1 →
        gl_fontRenderCharacter font ch c state =
          (0, [GLCmd.drawElements [4 * ch.val, 4 * ch.val + 1, 4 * ch.val + 3,
                 4 * ch.val + 1, 4 * ch.val + 3, 4 * ch.val + 2],
               GLCmd.matrixTranslate (font.chars ch).adv_x (font.chars ch).adv_y])) := by
  intro font ch c state
  refine ⟨fun h => by simp [gl_fontRenderCharacter, h], fun h hs => ?_, fun h hs => by
    simp [gl_fontRenderCharacter, h, hs]⟩
  constructor
  · simp [gl_fontRenderCharacter, h, hs]
  · intro cmd hcmd
    simp only [gl_fontRenderCharacter, if_neg h, if_pos hs] at hcmd
    split_ifs at hcmd <;> simp_all

/-- Witness for C7: the escape marker's step at a concrete input. -/
theorem renderCharacter_state_machine_wit :
    gl_fontRenderCharacter fontT escC none 0 = (1, []) :=
  (renderCharacter_state_machine fontT escC none 0).1 rfl

/-! ## Claim C5: `gl_printWidthForText` -/

theorem wrapGo_nil (ft_font : glFont) (width i n ls : Nat) :
    gl_printWidthForTextGo ft_font width [] i n ls = i := by
  rw [gl_printWidthForTextGo.eq_def]

theorem wrapGo_cons (ft_font : glFont) (width : Nat) (c : CP) (text : List CP)
    (i n ls : Nat) :
    gl_printWidthForTextGo ft_font width (c :: text) i n ls =
      (if c = nlC then i
       else if c = tabC then gl_printWidthForTextGo ft_font width text (i + 1) n ls
       else if c = escC then
         (match text with
          | [] => i + 1
          | _ :: text2 => gl_printWidthForTextGo ft_font width text2 (i + 2) n ls)
       else
         if n + (ft_font.chars c).adv_x > width then (if c = spaceC then i else ls)
         else gl_printWidthForTextGo ft_font width text (i + 1)
           (n + (ft_font.chars c).adv_x) (if c = spaceC then i else ls)) := by
  rw [gl_printWidthForTextGo.eq_def]

theorem scanToks_nil (i : Nat) : scanToks [] i = ([], i) := by
  rw [scanToks.eq_def]

theorem scanToks_cons (c : CP) (text : List CP) (i : Nat) :
    scanToks (c :: text) i =
      (if c = nlC then ([], i)
       else if c = tabC then scanToks text (i + 1)
       else if c = escC then
         (match text with
          | [] => ([], i + 1)
          | _ :: text2 => scanToks text2 (i + 2))
       else ((i, c) :: (scanToks text (i + 1)).1, (scanToks text (i + 1)).2)) := by
  rw [scanToks.eq_def]

theorem overflowAt_nil (ft_font : glFont) (width n : Nat) :
    overflowAt ft_font width n [] = none := by
  rw [overflowAt.eq_def]

theorem overflowAt_cons (ft_font : glFont) (width n j : Nat) (c : CP)
    (toks : List (Nat × CP)) :
    overflowAt ft_font width n ((j, c) :: toks) =
      (if n + (ft_font.chars c).adv_x > width then some [(j, c)]
       else (overflowAt ft_font width (n + (ft_font.chars c).adv_x) toks).map
         ((j, c) :: ·)) := by
  rw [overflowAt.eq_def]

theorem lastSpaceIdxD_cons (j : Nat) (c : CP) (toks : List (Nat × CP)) (d : Nat) :
    lastSpaceIdxD ((j, c) :: toks) d =
      lastSpaceIdxD toks (if c = spaceC then j else d) := by
  unfold lastSpaceIdxD
  rw [List.filter_cons]
  by_cases hc : c = spaceC
  · rw [if_pos (by simp [hc]), if_pos hc, List.map_cons]
    cases hl : ((toks.filter fun q => q.2 = spaceC).map Prod.fst) with
    | nil => simp [hl]
    | cons x xs =>
      rw [List.getLast?_cons_cons]
      cases hgl : (x :: xs).getLast? with
      | none => simp at hgl
      | some y => simp
  · rw [if_neg (by simp [hc]), if_neg hc]

theorem lastSpaceIdxD_single (j : Nat) (c : CP) (d : Nat) :
    lastSpaceIdxD [(j, c)] d = if c = spaceC then j else d := by
  by_cases hs : c = spaceC <;> simp [lastSpaceIdxD, hs]

/-- The single-pass loop of `gl_printWidthForText` computes the
two-phase description: find the token (counted position) at which the
accumulated width first goes over the budget; if there is one, answer
the last space seen up to it (default `ls`), otherwise the scan's stop
index. -/
theorem wrapGo_eq_spec (ft_font : glFont) (width : Nat) :
    ∀ (t : List CP) (i n ls : Nat),
      gl_printWidthForTextGo ft_font width t i n ls =
        (match overflowAt ft_font width n (scanToks t i).1 with
         | none => (scanToks t i).2
         | some pre => lastSpaceIdxD pre ls) := by
  intro t i n ls
  induction t, i, n, ls using gl_printWidthForTextGo.induct ft_font width with
  | case1 i x x1 => rw [wrapGo_nil, scanToks_nil]; simp [overflowAt_nil]
  | case2 text i n ls =>
    rw [wrapGo_cons, scanToks_cons]
    simp [overflowAt_nil]
  | case3 text i n ls h ih =>
    rw [wrapGo_cons, scanToks_cons]
    simpa [tabC, nlC, escC, Fin.mk.injEq] using ih
  | case4 i n ls h1 h2 =>
    rw [wrapGo_cons, scanToks_cons]
    simp [escC, nlC, tabC, Fin.mk.injEq, overflowAt_nil]
  | case5 i n ls head text2 h1 h2 ih =>
    rw [wrapGo_cons, scanToks_cons]
    simpa [escC, nlC, tabC, Fin.mk.injEq] using ih
  | case6 c text i n ls h1 h2 h3 n2 hgt =>
    rw [wrapGo_cons, scanToks_cons]
    simp only [if_neg h1, if_neg h2, if_neg h3]
    rw [overflowAt_cons]
    rw [if_pos hgt, if_pos hgt]
    simp [lastSpaceIdxD_single]
  | case7 c text i n ls h1 h2 h3 n2 ls2 hng ih =>
    rw [wrapGo_cons, scanToks_cons]
    simp only [if_neg h1, if_neg h2, if_neg h3]
    rw [overflowAt_cons]
    rw [if_neg hng, if_neg hng]
    rw [ih]
    cases hov : overflowAt ft_font width (n + (ft_font.chars c).adv_x)
        (scanToks text (i + 1)).1 with
    | none => simp [hov]
    | some pre => simp [hov, lastSpaceIdxD_cons]

/-- Counterexample for C5 as stated: in a font where each letter has
advance 10 and space advance 5, `wrapWidth("abc def", 25)` returns 0,
not 3 — the accumulated width 30 of `abc` already exceeds 25 at index
2, before any space has been recorded. -/
theorem wrapWidth_abcdef_cex :
    gl_printWidthForText fontT abcdefT 25 = 0 ∧
    gl_printWidthForText fontT abcdefT 25 ≠ 3 := by decide

/-- C5 as amended.  `gl_printWidthForText` scans until the first
newline or the end of the text, skipping tab bytes and escape
sequences with zero advance; if the accumulated width goes over the
budget before the scan ends it returns the index of the most recently
seen space, and 0 when no space has been seen (`wrapWidthSpec` states
exactly this, in two declarative phases).  In the example font the
break for `"abc def"` at budget 25 is 0 — the overflow happens at
index 2, before the space — while at budget 30 the overflow happens at
the space and the break lands at its index 3. -/
theorem wrapWidth_break_amended :
    (∀ (ft_font : glFont) (text : List CP) (width : Nat),
      gl_printWidthForText ft_font text width = wrapWidthSpec ft_font text width) ∧
    gl_printWidthForText fontT abcdefT 25 = 0 ∧
    gl_printWidthForText fontT abcdefT 30 = 3 := by
  refine ⟨fun ft_font text width => ?_, by decide, by decide⟩
  rw [gl_printWidthForText, wrapWidthSpec, wrapGo_eq_spec]

/-- Witness for C5's amended statement at a concrete input. -/
theorem wrapWidth_break_amended_wit :
    gl_printWidthForText fontT abcdefT 40 = wrapWidthSpec fontT abcdefT 40 :=
  wrapWidth_break_amended.1 fontT abcdefT 40

/-! ## Claim C3: `gl_printHeightRaw` -/

theorem floor_natCast_div_two (n : Nat) : ⌊((n : ℚ) / 2)⌋ = (n / 2 : Nat) := by
  rw [Int.floor_eq_iff]
  constructor
  · have h : (n / 2 : Nat) * 2 ≤ n := Nat.div_mul_le_self n 2
    rw [le_div_iff₀ (by norm_num : (0:ℚ) < 2)]
    exact_mod_cast h
  · have h : n < (n / 2 + 1) * 2 := by omega
    rw [div_lt_iff₀ (by norm_num : (0:ℚ) < 2)]
    push_cast
    exact_mod_cast h

theorem printLinesF_pos (ft_font : glFont) (width : Nat) :
    ∀ (fuel : Nat) (text : List CP), 1 ≤ gl_printLinesF ft_font width fuel text := by
  intro fuel text
  cases fuel with
  | zero => simp [gl_printLinesF]
  | succ f =>
    rw [gl_printLinesF]
    split <;> omega

theorem printLines_pos (ft_font : glFont) (width : Nat) (text : List CP) :
    1 ≤ gl_printLines ft_font width text :=
  printLinesF_pos ft_font width text.length text

/-- Counterexample for C3 as stated: with line height 10 and the
one-character text `a` (one line), `gl_printHeightRaw` returns 10, not
`1.5 × lineHeight × lines = 15` — the code subtracts `0.5 × h` before
the integer cast. -/
theorem printHeight_linear_cex :
    gl_printHeightRaw fontT 100 [aC] = 10 ∧
    ((gl_printHeightRaw fontT 100 [aC] : ℚ) ≠
      (3 / 2 : ℚ) * (fontT.h : ℚ) * (gl_printLines fontT 100 [aC] : ℚ)) := by
  have hlines : gl_printLines fontT 100 [aC] = 1 := rfl
  have hh : fontT.h = 10 := rfl
  have h1 : gl_printHeightRaw fontT 100 [aC] = 10 := by
    rw [gl_printHeightRaw, if_neg (by simp), hlines, hh]
    rw [show (3 / 2 : ℚ) * ((10 : ℕ) : ℚ) * ((1 : ℕ) : ℚ) -
        (1 / 2 : ℚ) * ((10 : ℕ) : ℚ) = ((10 : ℤ) : ℚ) by push_cast; norm_num]
    exact Int.floor_intCast 10
  refine ⟨h1, ?_⟩
  rw [h1, hlines, hh]
  push_cast
  norm_num

/-- C3 as amended.  `gl_printHeightRaw` returns 0 for the empty text;
otherwise it accumulates `1.5 × lineHeight` per line over the lines
obtained by repeatedly applying `gl_printWidthForText` until the
terminator is consumed, *subtracts* `0.5 × lineHeight` and casts to
int, i.e. it returns `⌊1.5·h·L − 0.5·h⌋ = h·(3·L − 1) div 2` rather
than `1.5·h·L`. -/
theorem printHeight_formula_amended :
    ∀ (ft_font : glFont) (width : Nat) (text : List CP),
      gl_printHeightRaw ft_font width text =
        if text = [] then 0
        else ((ft_font.h * (3 * gl_printLines ft_font width text - 1)) / 2 : Nat) := by
  intro f W t
  by_cases ht : t = []
  · simp [gl_printHeightRaw, ht]
  · rw [gl_printHeightRaw, if_neg ht, if_neg ht]
    have hL1 : 1 ≤ gl_printLines f W t := printLines_pos f W t
    have key : (3 / 2 : ℚ) * (f.h : ℚ) * (gl_printLines f W t : ℚ) -
        (1 / 2 : ℚ) * (f.h : ℚ) =
        ((f.h * (3 * gl_printLines f W t - 1) : ℕ) : ℚ) / 2 := by
      push_cast [Nat.cast_sub (by omega : 1 ≤ 3 * gl_printLines f W t)]
      ring
    rw [key, floor_natCast_div_two]

/-- Witness for C3's amended statement at a concrete input (two lines:
`"abc def"` wrapped at 25 pixels gives height `(3·4 − 1)·10/2 = 55`). -/
theorem printHeight_formula_amended_wit :
    gl_printHeightRaw fontT 25 abcdefT =
      ((fontT.h * (3 * gl_printLines fontT 25 abcdefT - 1)) / 2 : Nat) := by
  rw [printHeight_formula_amended fontT 25 abcdefT, if_neg (by simp [abcdefT])]

/-! ## Claim C8: the atlas packer's dimensions -/

theorem natCeilSqrt_spec (m : Nat) : m ≤ natCeilSqrt m * natCeilSqrt m := by
  unfold natCeilSqrt
  split
  · omega
  · have h := Nat.lt_succ_sqrt m
    simp only [Nat.succ_eq_add_one] at h
    omega

theorem natCeilSqrt_min (m k : Nat) (h : m ≤ k * k) : natCeilSqrt m ≤ k := by
  unfold natCeilSqrt
  have hs : Nat.sqrt m ≤ k := by
    calc Nat.sqrt m ≤ Nat.sqrt (k * k) := Nat.sqrt_le_sqrt h
      _ = k := Nat.sqrt_eq k
  split
  · exact hs
  · rename_i hne
    rcases Nat.lt_or_ge (Nat.sqrt m) k with hlt | hge
    · omega
    · exfalso
      have h1 : Nat.sqrt m * Nat.sqrt m ≤ m := Nat.sqrt_le m
      have hek : Nat.sqrt m = k := le_antisymm hs hge
      apply hne
      rw [hek] at h1 ⊢
      omega

theorem ceilDiv_le_iff (a b m : Nat) (hb : 0 < b) : ceilDiv a b ≤ m ↔ a ≤ b * m := by
  unfold ceilDiv
  rw [Nat.div_le_iff_le_mul_add_pred hb]
  omega

/-- `natCeilSqrt (ceilDiv a b)` is exactly the real `⌈√(a/b)⌉` the C
code computes with `ceil(sqrt((double)a / (double)b))`: the integer
ceiling of the square root only depends on `⌈a/b⌉` because squares of
integers are integers. -/
theorem natCeilSqrt_ceilDiv_eq (a b : Nat) (hb : 0 < b) :
    (natCeilSqrt (ceilDiv a b) : ℤ) = ⌈Real.sqrt ((a : ℝ) / (b : ℝ))⌉ := by
  have hbR : (0:ℝ) < (b : ℝ) := by exact_mod_cast hb
  symm
  rw [Int.ceil_eq_iff]
  constructor
  · rcases Nat.eq_zero_or_pos (natCeilSqrt (ceilDiv a b)) with hk0 | hkpos
    · rw [hk0]
      push_cast
      calc (0:ℝ) - 1 < 0 := by norm_num
        _ ≤ _ := Real.sqrt_nonneg _
    · set k := natCeilSqrt (ceilDiv a b) with hk
      have hlt : ¬ (ceilDiv a b ≤ (k - 1) * (k - 1)) := fun hcon =>
        absurd (natCeilSqrt_min (ceilDiv a b) (k - 1) hcon) (by omega)
      have hba : b * ((k - 1) * (k - 1)) < a := by
        by_contra hcon
        exact hlt ((ceilDiv_le_iff a b ((k - 1) * (k - 1)) hb).mpr (by omega))
      have hbaR : (b : ℝ) * (((k - 1 : ℕ) : ℝ) * ((k - 1 : ℕ) : ℝ)) < (a : ℝ) := by
        exact_mod_cast hba
      have hcast : (k : ℝ) - 1 = ((k - 1 : ℕ) : ℝ) := by
        have h1 : (1 : ℕ) ≤ k := hkpos
        push_cast [Nat.cast_sub h1]
        ring
      have hreal : ((k : ℝ) - 1) ^ 2 < (a : ℝ) / (b : ℝ) := by
        rw [lt_div_iff₀ hbR, hcast]
        calc ((k - 1 : ℕ) : ℝ) ^ 2 * (b : ℝ)
            = (b : ℝ) * (((k - 1 : ℕ) : ℝ) * ((k - 1 : ℕ) : ℝ)) := by ring
          _ < (a : ℝ) := hbaR
      have h0 : (0:ℝ) ≤ (k : ℝ) - 1 := by
        have h1 : (1:ℝ) ≤ (k : ℝ) := by exact_mod_cast hkpos
        linarith
      push_cast
      exact (Real.lt_sqrt h0).mpr hreal
  · set k := natCeilSqrt (ceilDiv a b) with hk
    have h1 : ceilDiv a b ≤ k * k := natCeilSqrt_spec (ceilDiv a b)
    have h2 : a ≤ b * (k * k) := (ceilDiv_le_iff a b (k * k) hb).mp h1
    have h2R : (a : ℝ) ≤ (b : ℝ) * ((k : ℝ) * (k : ℝ)) := by exact_mod_cast h2
    have hx : (a : ℝ) / (b : ℝ) ≤ (k : ℝ) ^ 2 := by
      rw [div_le_iff₀ hbR]
      calc (a : ℝ) ≤ (b : ℝ) * ((k : ℝ) * (k : ℝ)) := h2R
        _ = (k : ℝ) ^ 2 * (b : ℝ) := by ring
    push_cast
    calc Real.sqrt ((a : ℝ) / (b : ℝ)) ≤ Real.sqrt ((k : ℝ) ^ 2) := Real.sqrt_le_sqrt hx
      _ = (k : ℝ) := Real.sqrt_sq (by positivity)

theorem sqrt_ten : Nat.sqrt 10 = 3 := by
  have hub : Nat.sqrt 10 < 4 := Nat.sqrt_lt.mpr (by norm_num)
  have hlb : 3 ≤ Nat.sqrt 10 := Nat.le_sqrt.mpr (by norm_num)
  omega

set_option maxRecDepth 8000 in
/-- Counterexample for C8 as stated: for the 128-glyph set `cs128`
(total width 10, max height 1) the estimated row count is
`n = ⌈√10⌉ = 4`, and the claim's width `⌈10/4⌉ + 1 = 4`; the code's
`ceil( total_w / n ) + 1` divides *integers*, so it computes
`⌊10/4⌋ + 1 = 3`. -/
theorem atlas_width_floor_cex :
    (font_genTextureAtlasDims false cs128).1 ≠
      ceilDiv (totalW cs128) (natCeilSqrt (ceilDiv (totalW cs128) (maxH cs128))) + 1 := by
  have h1 : ceilDiv (totalW cs128) (maxH cs128) = 10 := by decide
  have hn : natCeilSqrt (ceilDiv (totalW cs128) (maxH cs128)) = 4 := by
    rw [h1]
    unfold natCeilSqrt
    rw [sqrt_ten]
    norm_num
  have hL : (font_genTextureAtlasDims false cs128).1 = 3 := by
    simp only [font_genTextureAtlasDims, hn]
    decide
  rw [hL, hn]
  decide


/-- C8 as amended.  For 128 rasterized glyphs with positive total width
and positive maximal height, the packer estimates the row count
`n = ⌈√(totalWidth / maxGlyphHeight)⌉` (real arithmetic), derives the
initial width `⌊totalWidth / n⌋ + 1` — the division inside the C
`ceil(total_w / n)` is integer division, so the claimed outer ceiling
is the identity — and the initial height `maxGlyphHeight · n + 1`, and
then re-validates with the row-filling simulation, growing the height
by one row (`maxGlyphHeight`) whenever a new row's bottom would reach
or exceed the current height (the non-POT path is stated; POT targets
additionally round each size to a power of two). -/
theorem atlas_dims_amended :
    ∀ (cs : List font_char_dim), cs.length = 128 → 0 < maxH cs → 0 < totalW cs →
      ((natCeilSqrt (ceilDiv (totalW cs) (maxH cs)) : ℤ) =
        ⌈Real.sqrt ((totalW cs : ℝ) / (maxH cs : ℝ))⌉) ∧
      font_genTextureAtlasDims false cs =
        (totalW cs / natCeilSqrt (ceilDiv (totalW cs) (maxH cs)) + 1,
         atlasFitLoop (totalW cs / natCeilSqrt (ceilDiv (totalW cs) (maxH cs)) + 1)
           (maxH cs) false (cs.map fun c => c.w) 0 0
           (maxH cs * natCeilSqrt (ceilDiv (totalW cs) (maxH cs)) + 1)) := by
  intro cs hlen hmax htot
  exact ⟨natCeilSqrt_ceilDiv_eq (totalW cs) (maxH cs) hmax, rfl⟩

set_option maxRecDepth 8000 in
/-- Witness for C8's amended statement at the concrete 128-glyph set. -/
theorem atlas_dims_amended_wit :
    (font_genTextureAtlasDims false cs128).1 =
      totalW cs128 / natCeilSqrt (ceilDiv (totalW cs128) (maxH cs128)) + 1 := by
  have h := atlas_dims_amended cs128 (by decide) (by decide) (by decide)
  exact congrArg Prod.fst h.2

/-! ## Model validation

The byte-level embedding agrees with the code-point embedding on
in-range texts, and the fuel given to the line counter is inessential:
`gl_printLines` satisfies the do-while recurrence of the C loop. -/

theorem charAt_toByte (ft_font : glFont) (c : CP) :
    charAt ft_font (toByte c) = some (ft_font.chars c) := by
  have h : (toByte c).val < 128 := c.isLt
  simp only [charAt, dif_pos h]
  rfl

theorem limitSizeGoB_cons (ft_font : glFont) (max : Nat) (c : Byte)
    (text : List Byte) (i n : Nat) :
    font_limitSizeGoB ft_font max (c :: text) i n =
      (match charAt ft_font c with
       | none => none
       | some gl =>
         if n + gl.adv_x > max then some (i, n)
         else font_limitSizeGoB ft_font max text (i + 1) (n + gl.adv_x)) := by
  rw [font_limitSizeGoB.eq_def]

theorem limitSizeB_agrees (ft_font : glFont) (max : Nat) :
    ∀ (t : List CP) (i n : Nat),
      font_limitSizeGoB ft_font max (t.map toByte) i n =
        some (font_limitSizeGo ft_font max t i n) := by
  intro t
  induction t with
  | nil => intro i n; rfl
  | cons c text ih =>
    intro i n
    rw [List.map_cons, limitSizeGoB_cons, charAt_toByte]
    simp only [font_limitSizeGo]
    by_cases hgt : n + (ft_font.chars c).adv_x > max
    · rw [if_pos hgt, if_pos hgt]
    · rw [if_neg hgt, if_neg hgt]
      exact ih _ _

theorem printWidthRawB_cons (ft_font : glFont) (c : Byte) (text : List Byte) :
    gl_printWidthRawB ft_font (c :: text) =
      (if c.val = 27 then
        (match text with
         | [] => some 0
         | _ :: text2 =>
           match text2 with
           | [] => some 0
           | _ :: text3 => gl_printWidthRawB ft_font text3)
       else
        match charAt ft_font c with
        | none => none
        | some gl => (gl_printWidthRawB ft_font text).map (gl.adv_x + ·)) := by
  rw [gl_printWidthRawB.eq_def]

theorem printWidthRaw_cons (ft_font : glFont) (c : CP) (text : List CP) :
    gl_printWidthRaw ft_font (c :: text) =
      (if c = escC then
        (match text with
         | [] => 0
         | _ :: text2 =>
           match text2 with
           | [] => 0
           | _ :: text3 => gl_printWidthRaw ft_font text3)
       else (ft_font.chars c).adv_x + gl_printWidthRaw ft_font text) := by
  rw [gl_printWidthRaw.eq_def]

theorem printWidthRawB_agrees (ft_font : glFont) :
    ∀ t : List CP,
      gl_printWidthRawB ft_font (t.map toByte) = some (gl_printWidthRaw ft_font t) := by
  intro t
  induction t using gl_printWidthRaw.induct ft_font with
  | case1 => rfl
  | case2 => rfl
  | case3 d => rfl
  | case4 d e text3 ih => exact ih
  | case5 c text3 h ih =>
    have hv : ¬ ((toByte c).val = 27) := fun hcon => h (Fin.ext hcon)
    rw [printWidthRaw_cons, if_neg h]
    rw [List.map_cons, printWidthRawB_cons, if_neg hv, charAt_toByte]
    rw [ih]
    rfl

theorem wrapGoB_cons (ft_font : glFont) (width : Nat) (c : Byte)
    (text : List Byte) (i n ls : Nat) :
    gl_printWidthForTextGoB ft_font width (c :: text) i n ls =
      (if c.val = 10 then some i
       else if c.val = 9 then gl_printWidthForTextGoB ft_font width text (i + 1) n ls
       else if c.val = 27 then
         (match text with
          | [] => some (i + 1)
          | _ :: text2 => gl_printWidthForTextGoB ft_font width text2 (i + 2) n ls)
       else
         match charAt ft_font c with
         | none => none
         | some gl =>
           if n + gl.adv_x > width then some (if c.val = 32 then i else ls)
           else gl_printWidthForTextGoB ft_font width text (i + 1) (n + gl.adv_x)
             (if c.val = 32 then i else ls)) := by
  rw [gl_printWidthForTextGoB.eq_def]

theorem toByte_space_iff (c : CP) (i ls : Nat) :
    (if (toByte c).val = 32 then i else ls) = (if c = spaceC then i else ls) := by
  by_cases hs : c = spaceC
  · subst hs
    rfl
  · rw [if_neg (show ¬ ((toByte c).val = 32) from fun hcon => hs (Fin.ext hcon)),
      if_neg hs]

theorem wrapB_agrees (ft_font : glFont) (width : Nat) :
    ∀ (t : List CP) (i n ls : Nat),
      gl_printWidthForTextGoB ft_font width (t.map toByte) i n ls =
        some (gl_printWidthForTextGo ft_font width t i n ls) := by
  intro t i n ls
  induction t, i, n, ls using gl_printWidthForTextGo.induct ft_font width with
  | case1 i x x1 => rfl
  | case2 text i n ls =>
    rw [List.map_cons, wrapGoB_cons, wrapGo_cons]
    rw [if_pos (show (toByte nlC).val = 10 from rfl), if_pos rfl]
  | case3 text i n ls h ih =>
    rw [List.map_cons, wrapGoB_cons, wrapGo_cons]
    rw [if_neg (show ¬ ((toByte tabC).val = 10) by decide),
      if_pos (show (toByte tabC).val = 9 from rfl)]
    rw [if_neg h, if_pos rfl]
    exact ih
  | case4 i n ls h1 h2 =>
    rw [List.map_cons, wrapGoB_cons, wrapGo_cons]
    rw [if_neg (show ¬ ((toByte escC).val = 10) by decide),
      if_neg (show ¬ ((toByte escC).val = 9) by decide),
      if_pos (show (toByte escC).val = 27 from rfl)]
    rw [if_neg h1, if_neg h2, if_pos rfl]
    simp only [List.map_nil]
  | case5 i n ls head text2 h1 h2 ih =>
    rw [List.map_cons, List.map_cons, wrapGoB_cons, wrapGo_cons]
    rw [if_neg (show ¬ ((toByte escC).val = 10) by decide),
      if_neg (show ¬ ((toByte escC).val = 9) by decide),
      if_pos (show (toByte escC).val = 27 from rfl)]
    rw [if_neg h1, if_neg h2, if_pos rfl]
    simp only []
    exact ih
  | case6 c text i n ls h1 h2 h3 n2 hgt =>
    have hv10 : ¬ ((toByte c).val = 10) := fun hcon => h1 (Fin.ext hcon)
    have hv9 : ¬ ((toByte c).val = 9) := fun hcon => h2 (Fin.ext hcon)
    have hv27 : ¬ ((toByte c).val = 27) := fun hcon => h3 (Fin.ext hcon)
    rw [List.map_cons, wrapGoB_cons, wrapGo_cons]
    rw [if_neg hv10, if_neg hv9, if_neg hv27, charAt_toByte]
    rw [if_neg h1, if_neg h2, if_neg h3]
    simp only []
    rw [if_pos hgt, if_pos hgt, toByte_space_iff]
  | case7 c text i n ls h1 h2 h3 n2 ls2 hng ih =>
    have hv10 : ¬ ((toByte c).val = 10) := fun hcon => h1 (Fin.ext hcon)
    have hv9 : ¬ ((toByte c).val = 9) := fun hcon => h2 (Fin.ext hcon)
    have hv27 : ¬ ((toByte c).val = 27) := fun hcon => h3 (Fin.ext hcon)
    rw [List.map_cons, wrapGoB_cons, wrapGo_cons]
    rw [if_neg hv10, if_neg hv9, if_neg hv27, charAt_toByte]
    rw [if_neg h1, if_neg h2, if_neg h3]
    simp only []
    rw [if_neg hng, if_neg hng, toByte_space_iff]
    exact ih

theorem printLinesF_fuel (ft_font : glFont) (width : Nat) :
    ∀ (fuel fuel2 : Nat) (t : List CP), t.length ≤ fuel → t.length ≤ fuel2 →
      gl_printLinesF ft_font width fuel t = gl_printLinesF ft_font width fuel2 t := by
  intro fuel
  induction fuel with
  | zero =>
    intro fuel2 t h1 h2
    have ht : t = [] := List.length_eq_zero.mp (Nat.le_zero.mp h1)
    subst ht
    cases fuel2 with
    | zero => rfl
    | succ f2 =>
      rw [gl_printLinesF, gl_printLinesF]
      simp [gl_printWidthForText, wrapGo_nil]
  | succ fl ih =>
    intro fuel2 t h1 h2
    cases fuel2 with
    | zero =>
      have ht : t = [] := List.length_eq_zero.mp (Nat.le_zero.mp h2)
      subst ht
      rw [gl_printLinesF, gl_printLinesF]
      simp [gl_printWidthForText, wrapGo_nil]
    | succ fl2 =>
      rw [gl_printLinesF, gl_printLinesF]
      by_cases hlt : gl_printWidthForText ft_font t width < t.length
      · rw [if_pos hlt, if_pos hlt]
        congr 1
        apply ih
        · rw [List.length_drop]
          omega
        · rw [List.length_drop]
          omega
      · rw [if_neg hlt, if_neg hlt]

/-- The line counter satisfies the do-while recurrence of
`gl_printHeightRaw` (the fuel instantiated with the text's length is
inessential): one line per iteration, plus the lines of the text after
the consumed break while the byte at the break index is not the
terminator. -/
theorem printLines_unfold (ft_font : glFont) (width : Nat) (t : List CP) :
    gl_printLines ft_font width t =
      if gl_printWidthForText ft_font t width < t.length then
        1 + gl_printLines ft_font width
          (t.drop (gl_printWidthForText ft_font t width + 1))
      else 1 := by
  cases t with
  | nil => simp [gl_printLines, gl_printLinesF, gl_printWidthForText, wrapGo_nil]
  | cons c text =>
    rw [gl_printLines, show (c :: text).length = text.length + 1 from rfl,
      gl_printLinesF]
    by_cases hlt : gl_printWidthForText ft_font (c :: text) width < (c :: text).length
    · have hlt2 : gl_printWidthForText ft_font (c :: text) width < text.length + 1 := by
        simpa using hlt
      rw [if_pos hlt, if_pos hlt2]
      congr 1
      rw [gl_printLines]
      apply printLinesF_fuel
      · rw [List.length_drop]
        simp only [List.length_cons]
        omega
      · exact le_refl _
    · have hlt2 : ¬ gl_printWidthForText ft_font (c :: text) width < text.length + 1 := by
        simpa using hlt
      rw [if_neg hlt, if_neg hlt2]

end NaevFont
